import Mathlib

set_option maxHeartbeats 1000000

/-!
Verification of the `datastar-prop` plugin (`src/index.ts`) and the
`live-signals` tree-viewer component against their specification.

The development shallowly embeds the TypeScript sources:
* JSON-compatible runtime values are modelled by `DSProp.JVal`
  (JSON numbers are modelled as integers; every value appearing in the
  specification's examples is an integer).
* The DOM element targeted by the plugin is modelled by
  `DSProp.ElementState`: its property table, whether it exposes a
  `requestUpdate` capability, and the list of `requestUpdate` calls made.
* A single reactive evaluation of the bound expression (`rx()`) is
  modelled by `Except String JVal`: `.ok v` when evaluation returns `v`,
  `.error e` when it throws `e`.
-/

namespace DSProp

/-- JSON-compatible values (the result of `JSON.parse`, or a value produced
by evaluating a Datastar expression).  Objects are association lists in key
insertion order (`JSON.parse` discards duplicate keys, so the lists that
arise from snapshots have pairwise distinct keys); arrays are lists in index
order.  Numbers are modelled as integers. -/
inductive JVal where
  | vNull : JVal
  | vBool : Bool → JVal
  | vNum : Int → JVal
  | vStr : String → JVal
  | vArr : List JVal → JVal
  | vObj : List (String × JVal) → JVal

namespace JVal

/-- `typeof v === "object" && v !== null && !Array.isArray(v)`:
the "plain object" test used by the plugin's multi-property mode. -/
def isObj : JVal → Bool
  | vObj _ => true
  | _ => false

/-- `Array.isArray`. -/
def isArr : JVal → Bool
  | vArr _ => true
  | _ => false

/-- JavaScript truthiness of a JSON value (`false`, `0`, `""` and `null`
are falsy; every object and array is truthy). -/
def truthy : JVal → Bool
  | vNull => false
  | vBool b => b
  | vNum n => decide (n ≠ 0)
  | vStr s => decide (s ≠ "")
  | vArr _ => true
  | vObj _ => true

end JVal

/-! ### The kebab-case → camelCase transform

`kebabToCamel` in `src/index.ts` replaces, globally and left to right,
every occurrence of the pattern "hyphen followed by a captured ASCII
lowercase letter `[a-z]`" with the captured letter uppercased, scanning
resuming after each matched pair.  `Char.isLower` / `Char.toUpper` from
core Lean are exactly the ASCII `[a-z]` test and the `a-z → A-Z` map that
the regex and `String.prototype.toUpperCase` perform on the captured
character. -/

/-- One left-to-right pass of the global regex replacement of
`kebabToCamel` over the character list of the key: a hyphen whose
successor is an ASCII lowercase letter is consumed together with that
letter, which is emitted uppercased; any other character is copied and
scanning continues at the next character. -/
def kebabChars : List Char → List Char
  | [] => []
  | c :: rest =>
      if c = '-' then
        match rest with
        | [] => ['-']
        | c2 :: rest2 =>
            if c2.isLower then c2.toUpper :: kebabChars rest2
            else '-' :: kebabChars (c2 :: rest2)
      else c :: kebabChars rest

/-- `kebabToCamel` from `src/index.ts`. -/
def kebabToCamel (s : String) : String :=
  ⟨kebabChars s.data⟩

/-- Inverse transform used to establish injectivity: rewrite every ASCII
uppercase letter `C` back to `-c`.  (Not part of the source; a verification
device.) -/
def camelBack : List Char → List Char
  | [] => []
  | c :: rest => (if c.isUpper then ['-', c.toLower] else [c]) ++ camelBack rest

/-- Valid identifier source keys: attribute keys are lowercased by the HTML
parser, so a valid source key contains no ASCII uppercase letter.  (This is
a superset of kebab-case identifiers, so injectivity on it is stronger.) -/
def validKeyChars (l : List Char) : Bool :=
  l.all fun c => !c.isUpper

/-- `validKeyChars` on strings. -/
def validKey (s : String) : Bool :=
  validKeyChars s.data

/-! ### The element model and `setProperty` -/

/-- State of a target DOM element, as far as the plugin observes and
mutates it: the properties assigned so far (an association list), whether
the element exposes a `requestUpdate` capability (a Lit component), and
the property-name arguments of the `requestUpdate` calls made so far, in
order. -/
structure ElementState where
  props : List (String × JVal)
  hasRequestUpdate : Bool
  requestUpdateCalls : List String

/-- An element with no properties assigned.  `hasRequestUpdate` is a
parameter of the scenario. -/
def emptyEl (hasRU : Bool) : ElementState :=
  { props := [], hasRequestUpdate := hasRU, requestUpdateCalls := [] }

/-- Assign into an association list (`element[propName] = value`). -/
def setAssoc (ps : List (String × JVal)) (name : String) (v : JVal) :
    List (String × JVal) :=
  match ps with
  | [] => [(name, v)]
  | (k, w) :: rest =>
      if k = name then (k, v) :: rest else (k, w) :: setAssoc rest name v

/-- Read a property of the element (`element[propName]`), `none` when the
property was never assigned. -/
def getProp (el : ElementState) (name : String) : Option JVal :=
  match el.props.find? (fun p => p.1 = name) with
  | some p => some p.2
  | none => none

/-- `setProperty` from `src/index.ts`: assign `element[propName] = value`
and, if the element exposes `requestUpdate`, invoke it with the assigned
property name. -/
def setProperty (el : ElementState) (name : String) (v : JVal) : ElementState :=
  { props := setAssoc el.props name v
    hasRequestUpdate := el.hasRequestUpdate
    requestUpdateCalls :=
      if el.hasRequestUpdate then el.requestUpdateCalls ++ [name]
      else el.requestUpdateCalls }

/-- The multi-property loop:
`for (const [propName, propValue] of Object.entries(value)) setProperty(el, propName, propValue)`.
Entry keys are used verbatim (no kebab-to-camel transform). -/
def assignEntries (el : ElementState) (entries : List (String × JVal)) :
    ElementState :=
  entries.foldl (fun acc p => setProperty acc p.1 p.2) el

/-- One run of the `update` closure of `apply` in `src/index.ts`
(the primary, non-debug implementation at lines 100–119).

`rx` is the outcome of this cycle's `rx!()` call.  The body performs
`const value = rx!()` with no try/catch, so a thrown `rx` aborts `update`
and the exception escapes to the host `effect`: this is modelled by
returning the untouched element together with `some e`, the exception that
propagates.  On success (`none` in the second component) the element
reflects the assignments performed.  (`deepRead value` is also executed on
success; it only reads, registering reactive dependencies in the host, and
never mutates the element, so it does not appear in the element-state
semantics — it is modelled separately by `deepRead` below.) -/
def update (key : Option String) (rx : Except String JVal)
    (el : ElementState) : ElementState × Option String :=
  match rx with
  | .error e => (el, some e)
  | .ok value =>
    match key with
    | some k => (setProperty el (kebabToCamel k) value, none)
    | none =>
      match value with
      | .vObj entries => (assignEntries el entries, none)
      | _ => (el, none)

/-- One run of the `update` closure of the debug variant of the plugin
(the second copy in `src/index.ts`, lines 257–287), which wraps `rx!()` in
`try { ... } catch (e) { warn(...); return; }`: a thrown `rx` is caught,
logged, and `update` returns normally having assigned nothing. -/
def updateDebug (key : Option String) (rx : Except String JVal)
    (el : ElementState) : ElementState × Option String :=
  match rx with
  | .error _ => (el, none)
  | .ok value => update key (.ok value) el

/-! ### `deepRead`: cycle-safe deep traversal

`deepRead` walks the runtime object graph of the evaluated value, which —
unlike a parsed JSON tree — may contain shared and self-referential
containers.  The graph is modelled by a heap: containers (objects and
arrays) are numbered nodes, and a runtime value is either a primitive
(`HVal.scalar`, which also covers `null`: `obj && typeof obj === "object"`
rejects both primitives and `null`) or a reference `HVal.ref n` to heap
node `n`.  The `WeakSet` of already-visited containers is the `seen` list
of node identities; `visits` records the order in which containers are
visited (the moment `seen.add(obj)` runs). -/

/-- A runtime value: a primitive (whose payload `deepRead` never inspects)
or a reference to a container node of the heap. -/
inductive HVal where
  | scalar : HVal
  | ref : Nat → HVal

/-- A container node: an array (children = its items, in index order) or a
plain object (children = the values of its `Object.keys`, in key order).
`deepRead` recurses into the children of both the same way. -/
structure Container where
  isArr : Bool
  children : List HVal

/-- The traversal state: the `WeakSet` contents and the visit order. -/
structure DfsSt where
  seen : List Nat
  visits : List Nat

/-- Number of heap nodes not yet in `seen` (termination measure). -/
def unseenCard (heap : List Container) (seen : List Nat) : Nat :=
  ((Finset.range heap.length).filter (fun i => i ∉ seen)).card

/-- `deepRead` of `src/index.ts` with the recursion stack made explicit:
the worklist holds the values still to be processed, depth first and left
to right, exactly in the order the recursive JS function reaches them; the
`seen` set is threaded through all calls, as the shared `WeakSet` is.
A primitive is skipped; a reference already in `seen` is skipped
(`if (seen.has(obj)) return`); otherwise the node is added to `seen` and
its children are processed next (`for (const item of obj)` resp.
`for (const key of Object.keys(obj))`).  A dangling reference (no heap
node) cannot arise in JavaScript and is skipped. -/
def deepReadLoop (heap : List Container) : List HVal → DfsSt → DfsSt
  | [], st => st
  | .scalar :: rest, st => deepReadLoop heap rest st
  | .ref n :: rest, st =>
    if hseen : n ∈ st.seen then deepReadLoop heap rest st
    else
      if hlt : n < heap.length then
        deepReadLoop heap (heap[n].children ++ rest) ⟨n :: st.seen, st.visits ++ [n]⟩
      else deepReadLoop heap rest st
termination_by l st => (unseenCard heap st.seen, l.length)
decreasing_by
  · apply Prod.Lex.right; simp
  · apply Prod.Lex.right; simp
  · apply Prod.Lex.left
    refine Finset.card_lt_card ?_
    have hsub : (Finset.range heap.length).filter (fun i => i ∉ n :: st.seen) ⊆
        (Finset.range heap.length).filter (fun i => i ∉ st.seen) := by
      intro i hi
      simp only [Finset.mem_filter, Finset.mem_range, List.mem_cons] at hi ⊢
      exact ⟨hi.1, fun hm => hi.2 (Or.inr hm)⟩
    rw [Finset.ssubset_iff_of_subset hsub]
    refine ⟨n, ?_, ?_⟩
    · simp only [Finset.mem_filter, Finset.mem_range]
      exact ⟨hlt, hseen⟩
    · simp
  · apply Prod.Lex.right; simp

/-- `deepRead(v)`: fresh `WeakSet`, one root value. -/
def deepRead (heap : List Container) (v : HVal) : DfsSt :=
  deepReadLoop heap [v] ⟨[], []⟩

/-- `Reaches heap v n`: container node `n` is reachable from the value `v`
(the root reference is a container, or a chain of container children leads
to it).  Only valid references (present in the heap) count as containers. -/
inductive Reaches (heap : List Container) : HVal → Nat → Prop where
  | root : ∀ n c, heap[n]? = some c → Reaches heap (.ref n) n
  | step : ∀ v n c m cm, Reaches heap v n → heap[n]? = some c →
      HVal.ref m ∈ c.children → heap[m]? = some cm → Reaches heap v m

/-! ### The live-signals viewer: JavaScript value access helpers -/

/-- `Object.keys` of a JavaScript value: key list of a plain object (in
insertion order), index strings of an array or a string.  Primitives have
no own enumerable properties.  (`Object.keys(null)` actually throws a
`TypeError`; the viewer only evaluates it under the poll handler's
`try`/`catch` or behind a falsy-guard, and the theorems below restrict to
object snapshots where relevant, so the throw is not modelled.) -/
def objectKeys : JVal → List String
  | .vObj kvs => kvs.map Prod.fst
  | .vArr xs => (List.range xs.length).map Nat.repr
  | .vStr s => (List.range s.length).map Nat.repr
  | _ => []

/-- `Object.keys(oldVal || {})`: a falsy `oldVal` (absent, `null`, `false`,
`0`, `""`) is replaced by `{}` first, so this never throws. -/
def keysOfOldOrEmpty (old : Option JVal) : List String :=
  match old with
  | none => []
  | some v => if v.truthy then objectKeys v else []

/-- First association in a plain object for key `k`
(`JSON.parse` output has pairwise distinct keys). -/
def objLookup : List (String × JVal) → String → Option JVal
  | [], _ => none
  | p :: rest, k => if p.1 = k then some p.2 else objLookup rest k

/-- Fold the decimal digits of a character list into a number (`none` on a
non-digit or an empty list). -/
def digitsVal : List Char → Option Nat → Option Nat
  | [], acc => acc
  | c :: rest, acc =>
      if c.isDigit then
        match acc with
        | none => digitsVal rest (some (c.toNat - 48))
        | some a => digitsVal rest (some (a * 10 + (c.toNat - 48)))
      else none

/-- A canonical array index string: `k` is the decimal numeral of `i`
with no leading zeros or sign, as JavaScript array indexing requires
(`a["007"]` is not element access). -/
def canonIdx (k : String) : Option Nat :=
  match digitsVal k.data none with
  | some i => if Nat.repr i = k then some i else none
  | none => none

/-- Property access `oldVal?.[k]` with a string key, as the diff performs
it on the old-snapshot side: `none` models `undefined`.  Optional chaining
makes access on `undefined`/`null` yield `undefined`; number and boolean
primitives have no own properties; strings expose `length` and their
characters under canonical indices; arrays expose `length` and their
elements; objects are association lookup. -/
def jsGet (old : Option JVal) (k : String) : Option JVal :=
  match old with
  | none => none
  | some .vNull => none
  | some (.vBool _) => none
  | some (.vNum _) => none
  | some (.vStr s) =>
      if k = "length" then some (.vNum s.length)
      else
        match canonIdx k with
        | some i => (s.data[i]?).map fun c => .vStr ⟨[c]⟩
        | none => none
  | some (.vArr xs) =>
      if k = "length" then some (.vNum xs.length)
      else
        match canonIdx k with
        | some i => xs[i]?
        | none => none
  | some (.vObj kvs) => objLookup kvs k

/-- Strict equality `oldVal !== newVal`, negated, in the configurations
where the diff consults it (the new side is a primitive, `null`, or
`undefined`).  Two containers from distinct `JSON.parse` results are never
reference-equal, so containers compare unequal to everything here. -/
def jsStrictEq : Option JVal → Option JVal → Bool
  | none, none => true
  | some (.vNull), some (.vNull) => true
  | some (.vBool a), some (.vBool b) => a = b
  | some (.vNum a), some (.vNum b) => a = b
  | some (.vStr a), some (.vStr b) => a = b
  | _, _ => false

/-- De-duplication keeping the first occurrence of each element, in order:
the iteration order of a JavaScript `Set` built by repeated insertion. -/
def firstDedupAux (seen : List String) : List String → List String
  | [] => []
  | x :: rest =>
      if x ∈ seen then firstDedupAux seen rest
      else x :: firstDedupAux (x :: seen) rest

/-- `new Set([...a, ...b])` as an ordered list. -/
def firstDedup (l : List String) : List String :=
  firstDedupAux [] l

/-- `new Set([...Object.keys(oldVal || {}), ...Object.keys(newVal)])`. -/
def unionKeys (old : Option JVal) (kvs : List (String × JVal)) : List String :=
  firstDedup (keysOfOldOrEmpty old ++ kvs.map Prod.fst)

/-- `currentPath ? currentPath + "." + key : key`. -/
def extendPath (path k : String) : String :=
  if path = "" then k else path ++ "." ++ k

/-- `String.prototype.split` with a single-character separator. -/
def splitOnChar (sep : Char) : List Char → List (List Char)
  | [] => [[]]
  | c :: rest =>
      match splitOnChar sep rest with
      | [] => [[]]
      | h :: t => if c = sep then [] :: h :: t else (c :: h) :: t

/-- `currentPath.split(".")[0].split("[")[0]`: the top-level key a changed
path belongs to. -/
def rootOf (path : String) : String :=
  ⟨(splitOnChar '[' ((splitOnChar '.' path.data).headD [])).headD []⟩

/-! ### The structural diff (`detectChanges`) -/

mutual

/-- Size measures used for the termination of the diff recursion (the
recursion structure is driven by the new-snapshot side only). -/
def jsize : JVal → Nat
  | .vNull => 1
  | .vBool _ => 1
  | .vNum _ => 1
  | .vStr _ => 1
  | .vArr xs => 1 + jsizeList xs
  | .vObj kvs => 1 + jsizeObj kvs

/-- Size of an array's items. -/
def jsizeList : List JVal → Nat
  | [] => 0
  | x :: rest => 1 + jsize x + jsizeList rest

/-- Size of an object's entries. -/
def jsizeObj : List (String × JVal) → Nat
  | [] => 0
  | p :: rest => 1 + jsize p.2 + jsizeObj rest
end

/-- Size of a possibly absent value. -/
def osize : Option JVal → Nat
  | none => 0
  | some v => jsize v

mutual

/-- The inner `check(oldVal, newVal, currentPath)` closure of
`detectChanges` in the viewer, returning the changed paths it records, in
the order the `newChanges` map receives them.  The branch is chosen by the
type of the new value only:
* new value a primitive, `null` or `undefined`: changed iff
  `oldVal !== newVal`;
* new value an array: marked changed as a whole iff the old value is not
  an array or the lengths differ, then every item is recursed positionally
  (`newVal.forEach((item, i) => check(oldVal?.[i], item, path[i]))`);
* new value a plain object: recurse over the union of
  `Object.keys(oldVal || {})` and `Object.keys(newVal)`, a key absent on
  one side being read as `undefined`.

The source accumulates into a shared `Map` (all with one timestamp per
diff) rather than returning a list; the key set and insertion order are
identical. -/
def check (old nw : Option JVal) (path : String) : List String :=
  match nw with
  | none => if jsStrictEq old nw then [] else [path]
  | some .vNull => if jsStrictEq old nw then [] else [path]
  | some (.vBool _) => if jsStrictEq old nw then [] else [path]
  | some (.vNum _) => if jsStrictEq old nw then [] else [path]
  | some (.vStr _) => if jsStrictEq old nw then [] else [path]
  | some (.vArr xs) =>
      (match old with
       | some (.vArr ys) => if ys.length = xs.length then [] else [path]
       | _ => [path]) ++ checkArr old xs 0 path
  | some (.vObj kvs) => checkObj old kvs (unionKeys old kvs) path
termination_by (osize nw, 0)
decreasing_by
  · apply Prod.Lex.left
    simp only [osize, jsize]
    omega
  · apply Prod.Lex.left
    simp only [osize, jsize]
    omega

/-- The `newVal.forEach((item, i) => ...)` loop of the array branch,
starting at index `i`. -/
def checkArr (old : Option JVal) (items : List JVal) (i : Nat) (path : String) :
    List String :=
  match items with
  | [] => []
  | x :: rest =>
      check (jsGet old (Nat.repr i)) (some x) (path ++ "[" ++ Nat.repr i ++ "]") ++
      checkArr old rest (i + 1) path
termination_by (jsizeList items, items.length + 1)
decreasing_by
  · apply Prod.Lex.left
    simp only [osize, jsizeList]
    omega
  · apply Prod.Lex.left
    simp only [jsizeList]
    omega

/-- The `allKeys.forEach(key => ...)` loop of the object branch: `kvs` is
the new-side object, `keys` the remaining union keys. -/
def checkObj (old : Option JVal) (kvs : List (String × JVal))
    (keys : List String) (path : String) : List String :=
  match keys with
  | [] => []
  | k :: rest =>
      check (jsGet old k) (objLookup kvs k) (extendPath path k) ++
      checkObj old kvs rest path
termination_by (jsizeObj kvs, keys.length + 1)
decreasing_by
  · have hall : ∀ (key : String) (ks : List String),
        Prod.Lex (· < ·) (· < ·) (osize (objLookup kvs key), 0)
          (jsizeObj kvs, (key :: ks).length + 1) := by
      intro key ks
      have hsz : ∀ (l : List (String × JVal)) (v : JVal),
          objLookup l key = some v → jsize v < jsizeObj l := by
        intro l
        induction l with
        | nil => intro v hx; simp [objLookup] at hx
        | cons p rest2 ih =>
            intro v hx
            by_cases hk : p.1 = key
            · simp only [objLookup, if_pos hk, Option.some.injEq] at hx
              subst hx
              simp only [jsizeObj]
              omega
            · simp only [objLookup, if_neg hk] at hx
              have := ih v hx
              simp only [jsizeObj]
              omega
      rcases hl : objLookup kvs key with _ | v
      · by_cases h0 : jsizeObj kvs = 0
        · rw [h0, show osize none = 0 from rfl]
          apply Prod.Lex.right
          omega
        · apply Prod.Lex.left
          rw [show osize none = 0 from rfl]
          omega
      · apply Prod.Lex.left
        rw [show osize (some v) = jsize v from rfl]
        exact hsz kvs v hl
    exact hall _ _
  · apply Prod.Lex.right
    simp only [List.length_cons]
    omega

end

/-- `detectChanges(oldObj, newObj, "")` of the viewer: the recorded changed
paths, and the changed top-level roots.  The source adds
`currentPath.split(".")[0].split("[")[0]` to the `changedRoots` set exactly
when it records a changed path, so the root set is the ordered
de-duplication of `rootOf` over the changed paths. -/
def detectChanges (oldObj nwObj : JVal) : List String × List String :=
  let ps := check (some oldObj) (some nwObj) ""
  (ps, firstDedup (ps.map rootOf))

/-! ### Auto-expansion of changed branches -/

/-- Scan for the first closing bracket: the bracket contents and the
remainder after it (`path.indexOf("]", i)` and the jump past it). -/
def splitAtCloseBracket : List Char → Option (List Char × List Char)
  | [] => none
  | c :: rest =>
      if c = ']' then some ([], rest)
      else
        match splitAtCloseBracket rest with
        | some p => some (c :: p.1, p.2)
        | none => none

/-- `getParentPaths(path)` of the viewer: walk the path characters,
pushing the accumulated path onto the parent list just before each `.`
separator and each `[index]` segment.  (When a `[` has no matching `]` the
source loops forever — `indexOf` returns `-1` and the cursor restarts;
viewer-generated paths are always balanced, and the model returns the
parents found so far.) -/
def parentPathsAux : List Char → List Char → List String → List String
  | [], _, acc => acc
  | c :: rest, cur, acc =>
      if c = '.' then
        parentPathsAux rest (cur ++ ['.'])
          (acc ++ if cur = [] then [] else [⟨cur⟩])
      else if c = '[' then
        match h : splitAtCloseBracket rest with
        | some p =>
            parentPathsAux p.2 (cur ++ '[' :: p.1 ++ [']'])
              (acc ++ if cur = [] then [] else [⟨cur⟩])
        | none => acc
      else parentPathsAux rest (cur ++ [c]) acc
termination_by l _ _ => l.length
decreasing_by
  · simp
  · have hlen : ∀ (l : List Char) (p : List Char × List Char),
        splitAtCloseBracket l = some p → p.2.length < l.length := by
      intro l
      induction l with
      | nil => intro p hp; simp [splitAtCloseBracket] at hp
      | cons c2 rest2 ih =>
          intro p hp
          by_cases hc : c2 = ']'
          · simp only [splitAtCloseBracket, if_pos hc] at hp
            cases hp
            simp
          · simp only [splitAtCloseBracket, if_neg hc] at hp
            rcases hq : splitAtCloseBracket rest2 with _ | q
            · rw [hq] at hp; cases hp
            · rw [hq] at hp
              cases hp
              have := ih q hq
              simp only [List.length_cons]
              omega
    have := hlen rest _ h
    simp only [List.length_cons]
    omega
  · simp

/-- `getParentPaths` on strings. -/
def getParentPaths (path : String) : List String :=
  parentPathsAux path.data [] []

/-- `startsWith` on strings, by characters. -/
def strStarts : List Char → List Char → Bool
  | _, [] => true
  | [], _ :: _ => false
  | c :: s, p :: ps => c = p && strStarts s ps

/-- `s.startsWith(t)`. -/
def strStartsWith (s t : String) : Bool :=
  strStarts s.data t.data

/-- `Set.add` as an ordered list. -/
def addIfAbsent (l : List String) (x : String) : List String :=
  if x ∈ l then l else l ++ [x]

/-- Add several elements in order. -/
def addAll (l : List String) (xs : List String) : List String :=
  xs.foldl addIfAbsent l

/-- `autoExpandChanged(changedRoots)` of the viewer: starting from an
empty set, for each top-level key of the (new) snapshot that is a changed
root, add the root and the parent paths of every changed path under it
(string comparison `changedPath.startsWith(root)`).  Top-level keys that
are not changed roots contribute nothing — the source comment reads
"Don't add unchanged roots - they stay collapsed" — and the previous
expansion set is discarded wholesale. -/
def autoExpandChanged (signalKeys changedRoots changedPaths : List String) :
    List String :=
  signalKeys.foldl
    (fun acc root =>
      if root ∈ changedRoots then
        changedPaths.foldl
          (fun acc2 changedPath =>
            if strStartsWith changedPath root then
              addAll acc2 (getParentPaths changedPath)
            else acc2)
          (addIfAbsent acc root)
      else acc)
    []

/-! ### Snapshot serialization (`JSON.stringify`) -/

/-- JSON string escaping for the characters that occur in snapshots
(quote and backslash; control-character escapes are not modelled). -/
def escapeChars : List Char → List Char
  | [] => []
  | c :: rest =>
      (if c = '"' then ['\\', '"']
       else if c = '\\' then ['\\', '\\']
       else [c]) ++ escapeChars rest

/-- Escape a string's characters. -/
def escapeStr (s : String) : String :=
  ⟨escapeChars s.data⟩

mutual

/-- `JSON.stringify` of a parsed snapshot (no spacing, keys in insertion
order — exactly what `JSON.stringify(JSON.parse(text))` produces). -/
def serialize : JVal → String
  | .vNull => "null"
  | .vBool b => if b then "true" else "false"
  | .vNum n => toString n
  | .vStr s => "\"" ++ escapeStr s ++ "\""
  | .vArr xs => "[" ++ serializeArr xs ++ "]"
  | .vObj kvs => "\x7b" ++ serializeObj kvs ++ "\x7d"

/-- Comma-separated item serialization. -/
def serializeArr : List JVal → String
  | [] => ""
  | [x] => serialize x
  | x :: y :: rest => serialize x ++ "," ++ serializeArr (y :: rest)

/-- Comma-separated entry serialization. -/
def serializeObj : List (String × JVal) → String
  | [] => ""
  | [p] => "\"" ++ escapeStr p.1 ++ "\":" ++ serialize p.2
  | p :: q :: rest =>
      "\"" ++ escapeStr p.1 ++ "\":" ++ serialize p.2 ++ "," ++
      serializeObj (q :: rest)

end

/-! ### The viewer poll-tick state machine -/

/-- The viewer state touched by `updateSignals`: the parsed baseline
snapshot (`signals`), its serialized form (`previousSignals`), the
expansion set, the changed-path markers, and the first-load flag. -/
structure ViewerState where
  signals : JVal
  previousSignals : String
  expandedPaths : List String
  changedPaths : List String
  isFirstLoad : Bool

/-- The component's initial state (`signals = {}`,
`previousSignals = "{}"`, empty expansion set, no markers). -/
def initialViewerState : ViewerState :=
  { signals := .vObj []
    previousSignals := "\x7b\x7d"
    expandedPaths := []
    changedPaths := []
    isFirstLoad := true }

/-- One poll tick (`updateSignals`).  `input` is the parsed content of the
`[data-json-signals]` element: `none` when the element or its text is
absent or `JSON.parse` threw (the tick is skipped silently).  Otherwise:
* first load with at least one top-level key: expansion set becomes
  exactly the top-level keys, the snapshot is stored as baseline, no diff
  is run and the marker map is untouched;
* serialized form unchanged: nothing happens;
* otherwise run `detectChanges` (which replaces the marker map), store
  the new baseline, and when at least one root changed rebuild the
  expansion set with `autoExpandChanged`.

The 1000 ms `setTimeout` that later clears the marker map is asynchronous
and not part of the tick. -/
def updateSignalsStep (input : Option JVal) (st : ViewerState) : ViewerState :=
  match input with
  | none => st
  | some newSignals =>
    let newJson := serialize newSignals
    if st.isFirstLoad = true ∧ 0 < (objectKeys newSignals).length then
      { signals := newSignals
        previousSignals := newJson
        expandedPaths := objectKeys newSignals
        changedPaths := st.changedPaths
        isFirstLoad := false }
    else if newJson ≠ st.previousSignals then
      let diff := detectChanges st.signals newSignals
      { signals := newSignals
        previousSignals := newJson
        expandedPaths :=
          if diff.2 ≠ [] then
            autoExpandChanged (objectKeys newSignals) diff.2 diff.1
          else st.expandedPaths
        changedPaths := diff.1
        isFirstLoad := st.isFirstLoad }
    else st

/-! ### The tree materialization (`buildTree`) -/

/-- The `type` tag of a tree node. -/
inductive NodeType where
  | object | array | str | num | boolean | nul
  deriving DecidableEq

/-- `getType(value)` of the viewer. -/
def getType : JVal → NodeType
  | .vNull => .nul
  | .vArr _ => .array
  | .vStr _ => .str
  | .vNum _ => .num
  | .vBool _ => .boolean
  | .vObj _ => .object

/-- A node of the rendered tree: key, value, type tag, materialized child
nodes (absent when never assigned), child-count badge (absent when never
assigned), and the path string identifying the position. -/
inductive TreeNode where
  | mk : String → JVal → NodeType → Option (List TreeNode) → Option Nat →
      String → TreeNode

/-- The node's key. -/
def TreeNode.key : TreeNode → String
  | .mk k _ _ _ _ _ => k

/-- The node's value. -/
def TreeNode.value : TreeNode → JVal
  | .mk _ v _ _ _ _ => v

/-- The node's type tag. -/
def TreeNode.typeTag : TreeNode → NodeType
  | .mk _ _ t _ _ _ => t

/-- The node's materialized children, if any were assigned. -/
def TreeNode.children : TreeNode → Option (List TreeNode)
  | .mk _ _ _ cs _ _ => cs

/-- The node's child-count badge, if assigned. -/
def TreeNode.count : TreeNode → Option Nat
  | .mk _ _ _ _ c _ => c

/-- The node's path string. -/
def TreeNode.path : TreeNode → String
  | .mk _ _ _ _ _ p => p

/-- Index-keyed entries of an array, from index `i`: `Object.entries` of
an array lists its elements under their decimal index strings. -/
def enumFrom (i : Nat) : List JVal → List (String × JVal)
  | [] => []
  | x :: rest => (Nat.repr i, x) :: enumFrom (i + 1) rest

mutual

/-- `buildTree(obj, parentPath)` of the viewer.  A primitive or `null`
yields no nodes; otherwise the `Object.entries` are filtered
(`!key.startsWith("$")`) and mapped to nodes.  (The source filters first
and then maps; the fused recursion below produces the same list.)  For an
entry holding a plain object, children are built recursively and the count
is `Object.keys(value).length` (unfiltered); for an entry holding an
array, children are the mapped items and the count is the length. -/
def buildTree (obj : JVal) (parentPath : String) : List TreeNode :=
  match obj with
  | .vObj kvs => buildEntries kvs parentPath
  | .vArr xs => buildEntries (enumFrom 0 xs) parentPath
  | _ => []
termination_by (jsize obj, 0)
decreasing_by
  · apply Prod.Lex.left
    simp only [jsize]
    omega
  · apply Prod.Lex.left
    have henum : ∀ (i : Nat) (l : List JVal),
        jsizeObj (enumFrom i l) = jsizeList l := by
      intro i l
      induction l generalizing i with
      | nil => simp [enumFrom, jsizeObj, jsizeList]
      | cons x rest ih =>
          simp only [enumFrom, jsizeObj, jsizeList]
          rw [ih]
    simp only [jsize, henum]
    omega

/-- The filtered entry-to-node map of `buildTree`. -/
def buildEntries : List (String × JVal) → String → List TreeNode
  | [], _ => []
  | (k, v) :: rest, parentPath =>
      if strStartsWith k "$" then buildEntries rest parentPath
      else
        let path := extendPath parentPath k
        (match v with
         | .vObj kvs2 =>
             TreeNode.mk k (.vObj kvs2) (getType (.vObj kvs2))
               (some (buildTree (.vObj kvs2) path)) (some kvs2.length) path
         | .vArr xs =>
             TreeNode.mk k (.vArr xs) (getType (.vArr xs))
               (some (buildItems xs path 0)) (some xs.length) path
         | w => TreeNode.mk k w (getType w) none none path) ::
        buildEntries rest parentPath
termination_by l _ => (jsizeObj l, l.length + 1)
decreasing_by
  · apply Prod.Lex.left
    simp only [jsizeObj]
    omega
  · apply Prod.Lex.left
    simp only [jsizeObj]
    omega
  · apply Prod.Lex.left
    simp only [jsizeObj, jsize]
    omega
  · apply Prod.Lex.left
    simp only [jsizeObj]
    omega

/-- The `value.map((item, i) => ...)` child builder of an array entry:
an object item gets recursively built children and its key count; an array
item gets only a count — its children are never assigned. -/
def buildItems : List JVal → String → Nat → List TreeNode
  | [], _, _ => []
  | item :: rest, path, i =>
      let itemPath := path ++ "[" ++ Nat.repr i ++ "]"
      (match item with
       | .vObj kvs2 =>
           TreeNode.mk (Nat.repr i) (.vObj kvs2) (getType (.vObj kvs2))
             (some (buildTree (.vObj kvs2) itemPath)) (some kvs2.length) itemPath
       | .vArr xs =>
           TreeNode.mk (Nat.repr i) (.vArr xs) (getType (.vArr xs)) none
             (some xs.length) itemPath
       | w => TreeNode.mk (Nat.repr i) w (getType w) none none itemPath) ::
      buildItems rest path (i + 1)
termination_by items _ _ => (jsizeList items, items.length + 1)
decreasing_by
  · apply Prod.Lex.left
    simp only [jsizeList]
    omega
  · apply Prod.Lex.left
    simp only [jsizeList]
    omega

end

/-! ## Helper lemmas -/

theorem validKeyChars_cons {x : Char} {l : List Char}
    (h : validKeyChars (x :: l) = true) :
    x.isUpper = false ∧ validKeyChars l = true := by
  simp only [validKeyChars, List.all_cons, Bool.and_eq_true, Bool.not_eq_eq_eq_not,
    Bool.not_true] at h
  exact ⟨h.1, h.2⟩

theorem char_toNat_ofNat {n : Nat} (h : n.isValidChar) :
    (Char.ofNat n).toNat = n := by
  rw [Char.ofNat, dif_pos h]
  simp [Char.ofNatAux, Char.toNat, UInt32.toNat, BitVec.toNat_ofNatLt]

theorem char_isLower_bounds {c : Char} (h : c.isLower = true) :
    97 ≤ c.toNat ∧ c.toNat ≤ 122 := by
  simp [Char.isLower, UInt32.le_def, BitVec.le_def] at h
  exact h

theorem char_toUpper_eq {c : Char} (h : c.isLower = true) :
    c.toUpper = Char.ofNat (c.toNat - 32) := by
  have hb := char_isLower_bounds h
  rw [Char.toUpper]
  simp only [if_pos (show c.toNat ≥ 97 ∧ c.toNat ≤ 122 by omega)]

theorem char_toUpper_toNat {c : Char} (h : c.isLower = true) :
    c.toUpper.toNat = c.toNat - 32 := by
  have hb := char_isLower_bounds h
  rw [char_toUpper_eq h]
  exact char_toNat_ofNat (Or.inl (by omega))

theorem char_toUpper_isUpper {c : Char} (h : c.isLower = true) :
    c.toUpper.isUpper = true := by
  have hb := char_isLower_bounds h
  have ht := char_toUpper_toNat h
  simp only [Char.isUpper, UInt32.le_def, BitVec.le_def, Bool.and_eq_true,
    decide_eq_true_eq]
  constructor
  · show (65 : UInt32).toBitVec.toNat ≤ c.toUpper.val.toBitVec.toNat
    have : c.toUpper.val.toBitVec.toNat = c.toUpper.toNat := rfl
    rw [this, ht]
    norm_num
    omega
  · show c.toUpper.val.toBitVec.toNat ≤ (90 : UInt32).toBitVec.toNat
    have : c.toUpper.val.toBitVec.toNat = c.toUpper.toNat := rfl
    rw [this, ht]
    norm_num
    omega

theorem char_toLower_toUpper {c : Char} (h : c.isLower = true) :
    c.toUpper.toLower = c := by
  have hb := char_isLower_bounds h
  have ht := char_toUpper_toNat h
  rw [Char.toLower, if_pos (by omega : c.toUpper.toNat ≥ 65 ∧ c.toUpper.toNat ≤ 90)]
  rw [ht]
  have : c.toNat - 32 + 32 = c.toNat := by omega
  rw [this, Char.ofNat_toNat]

theorem char_isLower_not_isUpper {c : Char} (h : c.isLower = true) :
    c.isUpper = false := by
  have hb := char_isLower_bounds h
  simp only [Char.isUpper, UInt32.le_def, BitVec.le_def, Bool.and_eq_false_iff]
  right
  simp only [decide_eq_false_iff_not]
  intro hle
  have : c.toNat ≤ 90 := hle
  omega

/-- `camelBack` undoes `kebabChars` on keys with no uppercase letter. -/
theorem camelBack_kebabChars :
    ∀ l : List Char, validKeyChars l = true → camelBack (kebabChars l) = l := by
  intro l
  induction l using kebabChars.induct with
  | case1 => intro _; rfl
  | case2 => intro _; decide
  | case3 c2 rest2 hlow ih =>
      intro hv
      obtain ⟨_, hv1⟩ := validKeyChars_cons hv
      obtain ⟨_, hv2⟩ := validKeyChars_cons hv1
      rw [show kebabChars ('-' :: c2 :: rest2) = c2.toUpper :: kebabChars rest2 from by
        rw [kebabChars.eq_def]; simp [hlow]]
      simp only [camelBack, char_toUpper_isUpper hlow, if_pos rfl,
        char_toLower_toUpper hlow]
      rw [ih hv2]
      rfl
  | case4 c2 rest2 hlow ih =>
      intro hv
      obtain ⟨_, hv1⟩ := validKeyChars_cons hv
      rw [show kebabChars ('-' :: c2 :: rest2) = '-' :: kebabChars (c2 :: rest2) from by
        rw [kebabChars.eq_def]; simp [hlow]]
      simp only [camelBack, show ('-' : Char).isUpper = false from by decide]
      simp only [Bool.false_eq_true, if_neg (by simp : ¬False)]
      rw [ih hv1]
      rfl
  | case5 c2 rest2 hne ih =>
      intro hv
      obtain ⟨hcu, hv1⟩ := validKeyChars_cons hv
      rw [show kebabChars (c2 :: rest2) = c2 :: kebabChars rest2 from by
        rw [kebabChars.eq_def]; simp [hne]]
      simp only [camelBack, hcu]
      simp only [Bool.false_eq_true, if_neg (by simp : ¬False)]
      rw [ih hv1]
      rfl


theorem find_setAssoc_self :
    ∀ (ps : List (String × JVal)) (n : String) (v : JVal),
      (setAssoc ps n v).find? (fun p => p.1 = n) = some (n, v) := by
  intro ps n v
  induction ps with
  | nil =>
      simp only [setAssoc]
      rw [List.find?_cons_of_pos _ (by simp)]
  | cons p rest ih =>
      by_cases hk : p.1 = n
      · simp only [setAssoc, if_pos hk]
        rw [List.find?_cons_of_pos _ (by simp [hk])]
        simp [hk]
      · simp only [setAssoc, if_neg hk]
        rw [List.find?_cons_of_neg _ (by simp [hk])]
        exact ih

theorem find_setAssoc_other :
    ∀ (ps : List (String × JVal)) (n m : String) (v : JVal), m ≠ n →
      (setAssoc ps n v).find? (fun p => p.1 = m) =
        ps.find? (fun p => p.1 = m) := by
  intro ps n m v hne
  induction ps with
  | nil =>
      simp only [setAssoc]
      rw [List.find?_cons_of_neg _ (by simpa using Ne.symm hne)]
  | cons p rest ih =>
      by_cases hk : p.1 = n
      · by_cases hm : p.1 = m
        · exact absurd (hm.symm.trans hk) hne
        · simp only [setAssoc, if_pos hk]
          rw [List.find?_cons_of_neg _ (by simpa using hm),
            List.find?_cons_of_neg _ (by simpa using hm)]
      · simp only [setAssoc, if_neg hk]
        by_cases hm : p.1 = m
        · rw [List.find?_cons_of_pos _ (by simpa using hm),
            List.find?_cons_of_pos _ (by simpa using hm)]
        · rw [List.find?_cons_of_neg _ (by simpa using hm),
            List.find?_cons_of_neg _ (by simpa using hm)]
          exact ih

theorem getProp_setProperty_self (el : ElementState) (n : String) (v : JVal) :
    getProp (setProperty el n v) n = some v := by
  simp [getProp, setProperty, find_setAssoc_self]

theorem getProp_setProperty_other (el : ElementState) {n m : String} (v : JVal)
    (hne : m ≠ n) : getProp (setProperty el n v) m = getProp el m := by
  simp [getProp, setProperty, find_setAssoc_other el.props n m v hne]

theorem assignEntries_notMem :
    ∀ (entries : List (String × JVal)) (el : ElementState) (name : String),
      name ∉ entries.map Prod.fst →
      getProp (assignEntries el entries) name = getProp el name := by
  intro entries
  induction entries with
  | nil => intro el name _; rfl
  | cons p rest ih =>
      intro el name hmem
      simp only [List.map_cons, List.mem_cons] at hmem
      push_neg at hmem
      simp only [assignEntries, List.foldl_cons]
      rw [show List.foldl (fun acc q => setProperty acc q.1 q.2)
            (setProperty el p.1 p.2) rest =
          assignEntries (setProperty el p.1 p.2) rest from rfl]
      rw [ih _ name hmem.2]
      exact getProp_setProperty_other el p.2 hmem.1

theorem assignEntries_mem :
    ∀ (entries : List (String × JVal)) (el : ElementState),
      (entries.map Prod.fst).Nodup →
      ∀ p ∈ entries, getProp (assignEntries el entries) p.1 = some p.2 := by
  intro entries
  induction entries with
  | nil => intro el _ p hp; cases hp
  | cons q rest ih =>
      intro el hnd p hp
      simp only [List.map_cons, List.nodup_cons] at hnd
      simp only [assignEntries, List.foldl_cons]
      rw [show List.foldl (fun acc r => setProperty acc r.1 r.2)
            (setProperty el q.1 q.2) rest =
          assignEntries (setProperty el q.1 q.2) rest from rfl]
      rcases List.mem_cons.mp hp with rfl | hp2
      · rw [assignEntries_notMem rest _ p.1 (by
          intro hc
          exact hnd.1 hc)]
        exact getProp_setProperty_self el p.1 p.2
      · exact ih (setProperty el q.1 q.2) hnd.2 p hp2

/-! ### Lemmas about `deepRead` -/

theorem deepReadLoop_seen_mono (heap : List Container) :
    ∀ (l : List HVal) (st : DfsSt) (n : Nat), n ∈ st.seen →
      n ∈ (deepReadLoop heap l st).seen := by
  intro l st
  induction l, st using deepReadLoop.induct heap with
  | case1 st => intro n h; rw [deepReadLoop]; exact h
  | case2 rest st ih => intro n h; rw [deepReadLoop]; exact ih n h
  | case3 m rest st hseen ih =>
      intro n h
      rw [deepReadLoop, dif_pos hseen]
      exact ih n h
  | case4 m rest st hseen hlt ih =>
      intro n h
      rw [deepReadLoop, dif_neg hseen, dif_pos hlt]
      exact ih n (by simp [h])
  | case5 m rest st hseen hlt ih =>
      intro n h
      rw [deepReadLoop, dif_neg hseen, dif_neg hlt]
      exact ih n h

theorem deepReadLoop_count_seen (heap : List Container) :
    ∀ (l : List HVal) (st : DfsSt) (n : Nat), n ∈ st.seen →
      (deepReadLoop heap l st).visits.count n = st.visits.count n := by
  intro l st
  induction l, st using deepReadLoop.induct heap with
  | case1 st => intro n _; rw [deepReadLoop]
  | case2 rest st ih => intro n h; rw [deepReadLoop]; exact ih n h
  | case3 m rest st hseen ih =>
      intro n h
      rw [deepReadLoop, dif_pos hseen]
      exact ih n h
  | case4 m rest st hseen hlt ih =>
      intro n h
      rw [deepReadLoop, dif_neg hseen, dif_pos hlt]
      have hne : m ≠ n := fun hc => hseen (hc ▸ h)
      rw [ih n (by simp [h])]
      simp [List.count_append, List.count_cons, List.count_nil, hne, Ne.symm hne]
  | case5 m rest st hseen hlt ih =>
      intro n h
      rw [deepReadLoop, dif_neg hseen, dif_neg hlt]
      exact ih n h

theorem deepReadLoop_nodup (heap : List Container) :
    ∀ (l : List HVal) (st : DfsSt),
      st.visits.Nodup → (∀ n ∈ st.visits, n ∈ st.seen) →
      (deepReadLoop heap l st).visits.Nodup ∧
        ∀ n ∈ (deepReadLoop heap l st).visits, n ∈ (deepReadLoop heap l st).seen := by
  intro l st
  induction l, st using deepReadLoop.induct heap with
  | case1 st => intro h1 h2; rw [deepReadLoop]; exact ⟨h1, h2⟩
  | case2 rest st ih => intro h1 h2; rw [deepReadLoop]; exact ih h1 h2
  | case3 m rest st hseen ih =>
      intro h1 h2
      rw [deepReadLoop, dif_pos hseen]
      exact ih h1 h2
  | case4 m rest st hseen hlt ih =>
      intro h1 h2
      rw [deepReadLoop, dif_neg hseen, dif_pos hlt]
      refine ih ?_ ?_
      · have hmv : m ∉ st.visits := fun hc => hseen (h2 m hc)
        simp [List.nodup_append, h1, hmv]
      · intro n hn
        simp only [List.mem_append, List.mem_singleton] at hn
        rcases hn with hn | rfl
        · simp [h2 n hn]
        · simp
  | case5 m rest st hseen hlt ih =>
      intro h1 h2
      rw [deepReadLoop, dif_neg hseen, dif_neg hlt]
      exact ih h1 h2

theorem deepReadLoop_frontier (heap : List Container) :
    ∀ (l : List HVal) (st : DfsSt) (n : Nat),
      HVal.ref n ∈ l → n < heap.length →
      n ∈ (deepReadLoop heap l st).seen := by
  intro l st
  induction l, st using deepReadLoop.induct heap with
  | case1 st => intro n hn _; cases hn
  | case2 rest st ih =>
      intro n hn hlt2
      rw [deepReadLoop]
      rcases List.mem_cons.mp hn with hc | hc
      · cases hc
      · exact ih n hc hlt2
  | case3 m rest st hseen ih =>
      intro n hn hlt2
      rw [deepReadLoop, dif_pos hseen]
      rcases List.mem_cons.mp hn with hc | hc
      · cases hc
        exact deepReadLoop_seen_mono heap rest st _ hseen
      · exact ih n hc hlt2
  | case4 m rest st hseen hlt ih =>
      intro n hn hlt2
      rw [deepReadLoop, dif_neg hseen, dif_pos hlt]
      rcases List.mem_cons.mp hn with hc | hc
      · cases hc
        exact deepReadLoop_seen_mono heap _ _ _ (by simp)
      · exact ih n (by simp [hc]) hlt2
  | case5 m rest st hseen hlt ih =>
      intro n hn hlt2
      rw [deepReadLoop, dif_neg hseen, dif_neg hlt]
      rcases List.mem_cons.mp hn with hc | hc
      · cases hc
        exact absurd hlt2 hlt
      · exact ih n hc hlt2

theorem deepReadLoop_closed (heap : List Container) :
    ∀ (l : List HVal) (st : DfsSt) (n : Nat) (c : Container),
      n ∈ (deepReadLoop heap l st).seen → n ∉ st.seen → heap[n]? = some c →
      ∀ m : Nat, HVal.ref m ∈ c.children → m < heap.length →
        m ∈ (deepReadLoop heap l st).seen := by
  intro l st
  induction l, st using deepReadLoop.induct heap with
  | case1 st =>
      intro n c hn hns _ m _ _
      rw [deepReadLoop] at hn
      exact absurd hn hns
  | case2 rest st ih =>
      intro n c hn hns hc m hm hmlt
      rw [deepReadLoop] at hn ⊢
      exact ih n c hn hns hc m hm hmlt
  | case3 k rest st hseen ih =>
      intro n c hn hns hc m hm hmlt
      rw [deepReadLoop, dif_pos hseen] at hn ⊢
      exact ih n c hn hns hc m hm hmlt
  | case4 k rest st hseen hlt ih =>
      intro n c hn hns hc m hm hmlt
      rw [deepReadLoop, dif_neg hseen, dif_pos hlt] at hn ⊢
      by_cases hnk : n = k
      · subst hnk
        have hck : heap[n] = c := by
          have := List.getElem?_eq_getElem hlt
          rw [this] at hc
          exact (Option.some.injEq _ _).mp hc
        refine deepReadLoop_frontier heap _ _ m ?_ hmlt
        rw [hck]
        simp [hm]
      · refine ih n c hn ?_ hc m hm hmlt
        simp only [List.mem_cons]
        push_neg
        exact ⟨hnk, hns⟩
  | case5 k rest st hseen hlt ih =>
      intro n c hn hns hc m hm hmlt
      rw [deepReadLoop, dif_neg hseen, dif_neg hlt] at hn ⊢
      exact ih n c hn hns hc m hm hmlt

theorem deepRead_reaches_seen (heap : List Container) (v : HVal) :
    ∀ n, Reaches heap v n → n ∈ (deepRead heap v).seen := by
  intro n hreach
  induction hreach with
  | root k c hk =>
      exact deepReadLoop_frontier heap [.ref k] ⟨[], []⟩ k (by simp)
        (List.getElem?_eq_some_iff.mp hk).1
  | step w k c m cm _ hk hm hcm ih =>
      exact deepReadLoop_closed heap [w] ⟨[], []⟩ k c ih (by simp) hk m hm
        (List.getElem?_eq_some_iff.mp hcm).1

theorem deepRead_seen_eq_visits (heap : List Container) :
    ∀ (l : List HVal) (st : DfsSt),
      (∀ n, n ∈ st.seen ↔ n ∈ st.visits) →
      ∀ n, n ∈ (deepReadLoop heap l st).seen ↔ n ∈ (deepReadLoop heap l st).visits := by
  intro l st
  induction l, st using deepReadLoop.induct heap with
  | case1 st => intro h n; rw [deepReadLoop]; exact h n
  | case2 rest st ih => intro h n; rw [deepReadLoop]; exact ih h n
  | case3 m rest st hseen ih =>
      intro h n
      rw [deepReadLoop, dif_pos hseen]
      exact ih h n
  | case4 m rest st hseen hlt ih =>
      intro h n
      rw [deepReadLoop, dif_neg hseen, dif_pos hlt]
      refine ih ?_ n
      intro j
      simp only [List.mem_cons, List.mem_append, List.mem_singleton]
      rw [h j]
      tauto
  | case5 m rest st hseen hlt ih =>
      intro h n
      rw [deepReadLoop, dif_neg hseen, dif_neg hlt]
      exact ih h n

/-! ### Lemmas about the viewer -/

theorem mem_addIfAbsent {l : List String} {x q : String}
    (h : q ∈ addIfAbsent l x) : q ∈ l ∨ q = x := by
  by_cases hx : x ∈ l
  · rw [addIfAbsent, if_pos hx] at h
    exact Or.inl h
  · rw [addIfAbsent, if_neg hx] at h
    rcases List.mem_append.mp h with h2 | h2
    · exact Or.inl h2
    · exact Or.inr (List.mem_singleton.mp h2)

theorem mem_addAll : ∀ (xs l : List String) (q : String),
    q ∈ addAll l xs → q ∈ l ∨ q ∈ xs := by
  intro xs
  induction xs with
  | nil => intro l q h; exact Or.inl h
  | cons x rest ih =>
      intro l q h
      have h1 : q ∈ addAll (addIfAbsent l x) rest := by
        simpa [addAll, List.foldl_cons] using h
      rcases ih (addIfAbsent l x) q h1 with h2 | h2
      · rcases mem_addIfAbsent h2 with h3 | h3
        · exact Or.inl h3
        · exact Or.inr (by simp [h3])
      · exact Or.inr (by simp [h2])

/-- Everything `autoExpandChanged` puts into the new expansion set is a
changed root or an ancestor path of a changed path: the previous expansion
set contributes nothing. -/
theorem autoExpand_mem (signalKeys changedRoots changedPaths : List String) :
    ∀ q ∈ autoExpandChanged signalKeys changedRoots changedPaths,
      q ∈ changedRoots ∨ ∃ p ∈ changedPaths, q ∈ getParentPaths p := by
  have hinner : ∀ (ps acc : List String) (root q : String),
      (∀ x ∈ acc, x ∈ changedRoots ∨ ∃ p ∈ changedPaths, x ∈ getParentPaths p) →
      (∀ x ∈ ps, x ∈ changedPaths) →
      q ∈ ps.foldl (fun acc2 changedPath =>
        if strStartsWith changedPath root then
          addAll acc2 (getParentPaths changedPath)
        else acc2) acc →
      q ∈ changedRoots ∨ ∃ p ∈ changedPaths, q ∈ getParentPaths p := by
    intro ps
    induction ps with
    | nil => intro acc root q hacc _ h; exact hacc q h
    | cons x rest ih =>
        intro acc root q hacc hsub h
        simp only [List.foldl_cons] at h
        refine ih _ root q ?_ (fun y hy => hsub y (by simp [hy])) h
        intro y hy
        by_cases hx : strStartsWith x root = true
        · rw [if_pos hx] at hy
          rcases mem_addAll _ _ _ hy with h2 | h2
          · exact hacc y h2
          · exact Or.inr ⟨x, hsub x (by simp), h2⟩
        · rw [if_neg hx] at hy
          exact hacc y hy
  have houter : ∀ (ks acc : List String) (q : String),
      (∀ x ∈ acc, x ∈ changedRoots ∨ ∃ p ∈ changedPaths, x ∈ getParentPaths p) →
      q ∈ ks.foldl (fun acc root =>
        if root ∈ changedRoots then
          changedPaths.foldl (fun acc2 changedPath =>
            if strStartsWith changedPath root then
              addAll acc2 (getParentPaths changedPath)
            else acc2) (addIfAbsent acc root)
        else acc) acc →
      q ∈ changedRoots ∨ ∃ p ∈ changedPaths, q ∈ getParentPaths p := by
    intro ks
    induction ks with
    | nil => intro acc q hacc h; exact hacc q h
    | cons k rest ih =>
        intro acc q hacc h
        simp only [List.foldl_cons] at h
        refine ih _ q ?_ h
        intro y hy
        by_cases hk : k ∈ changedRoots
        · rw [if_pos hk] at hy
          refine hinner changedPaths (addIfAbsent acc k) k y ?_ (fun x hx => hx) hy
          intro z hz
          rcases mem_addIfAbsent hz with h2 | h2
          · exact hacc z h2
          · exact Or.inl (h2 ▸ hk)
        · rw [if_neg hk] at hy
          exact hacc y hy
  intro q hq
  exact houter signalKeys [] q (by simp) hq

/-- The spec's diff example: old `{a: 1, b: {c: 2}}` against new
`{a: 1, b: {c: 3}}` yields change set exactly `["b.c"]` and changed-root
set exactly `["b"]`. -/
theorem detectChanges_example :
    detectChanges
      (.vObj [("a", .vNum 1), ("b", .vObj [("c", .vNum 2)])])
      (.vObj [("a", .vNum 1), ("b", .vObj [("c", .vNum 3)])]) =
    (["b.c"], ["b"]) := by
  simp [detectChanges, check, checkObj, checkArr, unionKeys, keysOfOldOrEmpty,
    objectKeys, firstDedup, firstDedupAux, objLookup, jsGet, jsStrictEq,
    extendPath, rootOf, splitOnChar, JVal.truthy]

/-! ## Claim theorems -/

/-- C5: `deepRead` terminates on every value, including self-referential
ones (it is a total function of the heap model, whose heap may contain
cyclic references), and it visits every reachable distinct container
exactly once: the visit order has no duplicates, every container reachable
from the root value appears in it, and a container already in the visited
set is skipped — the traversal never visits it again (its visit count
never grows). -/
theorem C5_deepRead_visits_each_container_once (heap : List Container) (v : HVal) :
    (deepRead heap v).visits.Nodup ∧
    (∀ n, Reaches heap v n → n ∈ (deepRead heap v).visits) ∧
    (∀ (l : List HVal) (st : DfsSt) (n : Nat), n ∈ st.seen →
      (deepReadLoop heap l st).visits.count n = st.visits.count n) := by
  refine ⟨?_, ?_, ?_⟩
  · exact (deepReadLoop_nodup heap [v] ⟨[], []⟩ (by simp) (by simp)).1
  · intro n hr
    have hseen := deepRead_reaches_seen heap v n hr
    exact (deepRead_seen_eq_visits heap [v] ⟨[], []⟩ (by simp) n).mp hseen
  · exact deepReadLoop_count_seen heap

/-- C5 witness: the one-node heap whose container holds a reference to
itself (`const obj = {}; obj.self = obj` flavoured): `deepRead` terminates,
visits container `0` exactly once, and a traversal starting with `0`
already in the visited set never visits it again. -/
theorem C5_witness :
    (deepRead [Container.mk true [.ref 0, .scalar]] (.ref 0)).visits.Nodup ∧
    0 ∈ (deepRead [Container.mk true [.ref 0, .scalar]] (.ref 0)).visits ∧
    (deepReadLoop [Container.mk true [.ref 0, .scalar]] [.ref 0]
      ⟨[0], [0]⟩).visits.count 0 = 1 := by
  have h := C5_deepRead_visits_each_container_once
    [Container.mk true [.ref 0, .scalar]] (.ref 0)
  refine ⟨h.1, h.2.1 0 (Reaches.root 0 (Container.mk true [.ref 0, .scalar]) rfl), ?_⟩
  rw [h.2.2 [.ref 0] ⟨[0], [0]⟩ 0 (by simp)]
  decide

/-- C3 counterexample: for old snapshot `{}` and new snapshot `{k: {}}`,
the key `k` is present on only one side, yet `detectChanges` records no
changed path and no changed root at all: comparing the object `{}` against
`undefined` recurses over its (empty) key set instead of marking the key
as changed, so "a key present on only one side … is thus marked changed"
fails for object-valued keys. -/
theorem C3_counterexample :
    detectChanges (.vObj []) (.vObj [("k", .vObj [])]) = ([], []) ∧
    "k" ∉ (detectChanges (.vObj []) (.vObj [("k", .vObj [])])).1 := by
  have h : detectChanges (.vObj []) (.vObj [("k", .vObj [])]) = ([], []) := by
    simp [detectChanges, check, checkObj, checkArr, unionKeys, keysOfOldOrEmpty,
      objectKeys, firstDedup, firstDedupAux, objLookup, jsGet, jsStrictEq,
      extendPath, rootOf, splitOnChar, JVal.truthy]
  refine ⟨h, ?_⟩
  rw [h]
  simp

/-- C3 (amended): the structural diff marks a scalar path changed iff the
values differ strictly; marks an array as a whole iff the old counterpart
is not an array or the lengths differ, recursing positionally into the
items; and recurses objects over the union of old and new keys, a key
present on only one side being compared against `undefined` — which marks
the key when its value is a scalar or an array (and always marks a key
deleted from the new side), while an object-valued added key is not itself
marked, only its scalar and array descendants are.  In particular the
spec's example `{a:1, b:{c:2}}` → `{a:1, b:{c:3}}` yields change set
exactly `{"b.c"}` and changed roots exactly `{"b"}`, and the array example
`{items:[1,2]}` → `{items:[1,2,3]}` marks `items` and `items[2]`. -/
theorem C3_diff_rules :
    detectChanges
        (.vObj [("a", .vNum 1), ("b", .vObj [("c", .vNum 2)])])
        (.vObj [("a", .vNum 1), ("b", .vObj [("c", .vNum 3)])]) =
      (["b.c"], ["b"]) ∧
    detectChanges (.vObj [("items", .vArr [.vNum 1, .vNum 2])])
        (.vObj [("items", .vArr [.vNum 1, .vNum 2, .vNum 3])]) =
      (["items", "items[2]"], ["items"]) ∧
    (∀ (v : JVal) (path : String), v.isObj = false →
        (check none (some v) path).head? = some path) ∧
    (∀ (w : JVal) (path : String), check (some w) none path = [path]) := by
  refine ⟨detectChanges_example, ?_, ?_, ?_⟩
  · simp [detectChanges, check, checkObj, checkArr, unionKeys,
      keysOfOldOrEmpty, objectKeys, firstDedup, firstDedupAux, objLookup,
      jsGet, jsStrictEq, extendPath, rootOf, splitOnChar, JVal.truthy,
      canonIdx, digitsVal]
    decide
  · intro v path hv
    cases v with
    | vObj kvs => simp [JVal.isObj] at hv
    | vArr xs => simp [check]
    | vNull => simp [check, jsStrictEq]
    | vBool b => simp [check, jsStrictEq]
    | vNum n => simp [check, jsStrictEq]
    | vStr s => simp [check, jsStrictEq]
  · intro w path
    cases w <;> simp [check, jsStrictEq]

/-- C3 witness: a one-sided array-valued key is marked (its path heads the
recorded list), and a key deleted from the new side is marked. -/
theorem C3_witness :
    (check none (some (.vArr [])) "p").head? = some "p" ∧
    check (some (.vNum 3)) none "q" = ["q"] :=
  ⟨C3_diff_rules.2.2.1 (.vArr []) "p" rfl, C3_diff_rules.2.2.2 (.vNum 3) "q"⟩

/-- C9: on the first successfully parsed snapshot with at least one
top-level key, the viewer sets the expansion set to exactly the top-level
keys, stores the snapshot (and its serialization) as the baseline, runs no
diff, and records no change markers (`changedPaths` is untouched). -/
theorem C9_first_snapshot (st : ViewerState) (v : JVal)
    (hfirst : st.isFirstLoad = true) (hkeys : 0 < (objectKeys v).length) :
    updateSignalsStep (some v) st =
      { signals := v
        previousSignals := serialize v
        expandedPaths := objectKeys v
        changedPaths := st.changedPaths
        isFirstLoad := false } := by
  simp only [updateSignalsStep]
  rw [if_pos ⟨hfirst, hkeys⟩]

/-- C9 witness: the first snapshot `{flow: {x: 1}, ui: {}}` from the
initial state gives expansion set exactly `["flow", "ui"]`, the serialized
baseline, and no change markers. -/
theorem C9_witness :
    updateSignalsStep
        (some (.vObj [("flow", .vObj [("x", .vNum 1)]), ("ui", .vObj [])]))
        initialViewerState =
      { signals := .vObj [("flow", .vObj [("x", .vNum 1)]), ("ui", .vObj [])]
        previousSignals := serialize (.vObj [("flow", .vObj [("x", .vNum 1)]), ("ui", .vObj [])])
        expandedPaths := ["flow", "ui"]
        changedPaths := []
        isFirstLoad := false } :=
  (C9_first_snapshot initialViewerState
    (.vObj [("flow", .vObj [("x", .vNum 1)]), ("ui", .vObj [])])
    rfl (by decide)).trans rfl

/-- C2 counterexample: baseline `{a: 1, b: {c: 2}}` with both top-level
keys expanded (exactly the state left by the first load); the new snapshot
`{a: 1, b: {c: 3}}` changes only `b`.  After the tick, the expansion set
is exactly `["b"]`: the unchanged top-level key `a`, which the user had
expanded, has been force-collapsed — its membership is not preserved. -/
theorem C2_counterexample :
    "a" ∈ (ViewerState.mk
        (.vObj [("a", .vNum 1), ("b", .vObj [("c", .vNum 2)])])
        (serialize (.vObj [("a", .vNum 1), ("b", .vObj [("c", .vNum 2)])])) ["a", "b"] [] false).expandedPaths ∧
    (updateSignalsStep (some (.vObj [("a", .vNum 1), ("b", .vObj [("c", .vNum 3)])]))
        (ViewerState.mk
          (.vObj [("a", .vNum 1), ("b", .vObj [("c", .vNum 2)])])
          (serialize (.vObj [("a", .vNum 1), ("b", .vObj [("c", .vNum 2)])])) ["a", "b"] [] false)).expandedPaths = ["b"] ∧
    "a" ∉ (updateSignalsStep (some (.vObj [("a", .vNum 1), ("b", .vObj [("c", .vNum 3)])]))
        (ViewerState.mk
          (.vObj [("a", .vNum 1), ("b", .vObj [("c", .vNum 2)])])
          (serialize (.vObj [("a", .vNum 1), ("b", .vObj [("c", .vNum 2)])])) ["a", "b"] [] false)).expandedPaths := by
  have h2 : (updateSignalsStep
      (some (.vObj [("a", .vNum 1), ("b", .vObj [("c", .vNum 3)])]))
      (ViewerState.mk
        (.vObj [("a", .vNum 1), ("b", .vObj [("c", .vNum 2)])])
        (serialize (.vObj [("a", .vNum 1), ("b", .vObj [("c", .vNum 2)])])) ["a", "b"] [] false)).expandedPaths = ["b"] := by
    simp only [updateSignalsStep]
    rw [if_neg (by decide), if_pos (by decide), detectChanges_example]
    simp [autoExpandChanged, addIfAbsent, addAll, getParentPaths,
      parentPathsAux, splitAtCloseBracket, strStartsWith, strStarts, objectKeys]
  refine ⟨by decide, h2, ?_⟩
  rw [h2]
  decide

/-- C2 (amended): after a poll tick whose snapshot parses, is not the
first load, differs in serialized form, and produces at least one changed
root, the expansion set is recomputed from scratch by `autoExpandChanged`
— it depends only on the new snapshot's top-level keys, the changed roots
and the changed paths, never on the previous expansion set — and every
member is a changed root or an ancestor of a changed path.  Top-level keys
that are not changed roots (and everything beneath them) are dropped:
force-collapsed, regardless of how the user last set them.  (The object
hypothesis records that snapshots are JSON objects; on a `null` snapshot
the source instead throws inside the tick's catch block.) -/
theorem C2_auto_expand_discards_previous (st : ViewerState) (v : JVal)
    (hobj : v.isObj = true)
    (hfl : st.isFirstLoad = false)
    (hne : serialize v ≠ st.previousSignals)
    (hroots : (detectChanges st.signals v).2 ≠ []) :
    (updateSignalsStep (some v) st).expandedPaths =
      autoExpandChanged (objectKeys v) (detectChanges st.signals v).2
        (detectChanges st.signals v).1 ∧
    ∀ q ∈ (updateSignalsStep (some v) st).expandedPaths,
      q ∈ (detectChanges st.signals v).2 ∨
        ∃ p ∈ (detectChanges st.signals v).1, q ∈ getParentPaths p := by
  have h1 : (updateSignalsStep (some v) st).expandedPaths =
      autoExpandChanged (objectKeys v) (detectChanges st.signals v).2
        (detectChanges st.signals v).1 := by
    simp only [updateSignalsStep]
    rw [if_neg (by simp [hfl]), if_pos hne, if_pos hroots]
  refine ⟨h1, ?_⟩
  intro q hq
  rw [h1] at hq
  exact autoExpand_mem _ _ _ q hq

/-- C2 witness: the amended theorem applied at the counterexample state. -/
theorem C2_witness :
    (updateSignalsStep (some (.vObj [("a", .vNum 1), ("b", .vObj [("c", .vNum 3)])]))
        (ViewerState.mk
          (.vObj [("a", .vNum 1), ("b", .vObj [("c", .vNum 2)])])
          (serialize (.vObj [("a", .vNum 1), ("b", .vObj [("c", .vNum 2)])])) ["a", "b"] [] false)).expandedPaths =
      autoExpandChanged ["a", "b"] ["b"] ["b.c"] := by
  have h := (C2_auto_expand_discards_previous
    (ViewerState.mk
      (.vObj [("a", .vNum 1), ("b", .vObj [("c", .vNum 2)])])
      (serialize (.vObj [("a", .vNum 1), ("b", .vObj [("c", .vNum 2)])])) ["a", "b"] [] false)
    (.vObj [("a", .vNum 1), ("b", .vObj [("c", .vNum 3)])])
    rfl rfl (by decide)
    (by
      show (detectChanges (.vObj [("a", .vNum 1), ("b", .vObj [("c", .vNum 2)])])
        (.vObj [("a", .vNum 1), ("b", .vObj [("c", .vNum 3)])])).2 ≠ []
      rw [detectChanges_example]
      decide)).1
  rw [h]
  show autoExpandChanged _
    (detectChanges (.vObj [("a", .vNum 1), ("b", .vObj [("c", .vNum 2)])])
      (.vObj [("a", .vNum 1), ("b", .vObj [("c", .vNum 3)])])).2
    (detectChanges (.vObj [("a", .vNum 1), ("b", .vObj [("c", .vNum 2)])])
      (.vObj [("a", .vNum 1), ("b", .vObj [("c", .vNum 3)])])).1 = _
  rw [detectChanges_example]
  rfl

/-- C4 counterexample: for the snapshot `{k: [[1, 2]]}` the inner array
(an array nested directly inside an array) is materialized as a node of
container type `array` with a child count of `2` but with `children` never
assigned — its child nodes are not materialized, contrary to the claim. -/
theorem C4_counterexample :
    buildTree (.vObj [("k", .vArr [.vArr [.vNum 1, .vNum 2]])]) "" =
      [TreeNode.mk "k" (.vArr [.vArr [.vNum 1, .vNum 2]]) .array
        (some [TreeNode.mk "0" (.vArr [.vNum 1, .vNum 2]) .array none
          (some 2) "k[0]"])
        (some 1) "k"] := by
  simp [buildTree, buildEntries, buildItems, extendPath, getType,
    strStartsWith, strStarts]
  decide

/-- C4 (amended): every node built from an object entry with a container
value has its children materialized — objects recursively, arrays by
mapping their items — with the count being the raw key count resp. the
length; and for nodes built from array items, an object item gets
recursively built children, while an array item (an array nested directly
inside an array) gets only its length as count and its children are left
unassigned. -/
theorem C4_node_children :
    (∀ (entries : List (String × JVal)) (parentPath : String) (n : TreeNode),
        n ∈ buildEntries entries parentPath →
        (n.typeTag = .object → ∃ kvs, n.value = .vObj kvs ∧
            n.children = some (buildTree (.vObj kvs) n.path) ∧
            n.count = some kvs.length) ∧
        (n.typeTag = .array → ∃ xs, n.value = .vArr xs ∧
            n.children = some (buildItems xs n.path 0) ∧
            n.count = some xs.length)) ∧
    ∀ (items : List JVal) (path : String) (i : Nat) (n : TreeNode),
        n ∈ buildItems items path i →
        (n.typeTag = .object → ∃ kvs, n.value = .vObj kvs ∧
            n.children = some (buildTree (.vObj kvs) n.path) ∧
            n.count = some kvs.length) ∧
        (n.typeTag = .array → ∃ xs, n.value = .vArr xs ∧
            n.children = none ∧ n.count = some xs.length) := by
  constructor
  · intro entries
    induction entries with
    | nil =>
        intro pp n hn
        simp [buildEntries] at hn
    | cons e rest ih =>
        intro pp n hn
        obtain ⟨k, v⟩ := e
        by_cases hd : strStartsWith k "$" = true
        · rw [buildEntries, if_pos hd] at hn
          exact ih pp n hn
        · rw [buildEntries, if_neg hd] at hn
          rcases List.mem_cons.mp hn with rfl | hmem
          · cases v with
            | vObj kvs2 =>
                constructor
                · intro _
                  exact ⟨kvs2, rfl, rfl, rfl⟩
                · intro hT
                  simp [TreeNode.typeTag, getType] at hT
            | vArr xs =>
                constructor
                · intro hT
                  simp [TreeNode.typeTag, getType] at hT
                · intro _
                  exact ⟨xs, rfl, rfl, rfl⟩
            | vNull =>
                constructor <;> intro hT <;> simp [TreeNode.typeTag, getType] at hT
            | vBool b =>
                constructor <;> intro hT <;> simp [TreeNode.typeTag, getType] at hT
            | vNum m =>
                constructor <;> intro hT <;> simp [TreeNode.typeTag, getType] at hT
            | vStr s =>
                constructor <;> intro hT <;> simp [TreeNode.typeTag, getType] at hT
          · exact ih pp n hmem
  · intro items
    induction items with
    | nil =>
        intro path i n hn
        simp [buildItems] at hn
    | cons item rest ih =>
        intro path i n hn
        rw [buildItems.eq_def] at hn
        cases item with
        | vObj kvs2 =>
            rcases List.mem_cons.mp hn with rfl | hmem
            · refine ⟨fun _ => ⟨kvs2, rfl, rfl, rfl⟩,
                fun hT => (by simp [TreeNode.typeTag, getType] at hT)⟩
            · exact ih path (i + 1) n hmem
        | vArr xs =>
            rcases List.mem_cons.mp hn with rfl | hmem
            · refine ⟨fun hT => (by simp [TreeNode.typeTag, getType] at hT),
                fun _ => ⟨xs, rfl, rfl, rfl⟩⟩
            · exact ih path (i + 1) n hmem
        | vNull =>
            rcases List.mem_cons.mp hn with rfl | hmem
            · refine ⟨fun hT => (by simp [TreeNode.typeTag, getType] at hT),
                fun hT => (by simp [TreeNode.typeTag, getType] at hT)⟩
            · exact ih path (i + 1) n hmem
        | vBool b =>
            rcases List.mem_cons.mp hn with rfl | hmem
            · refine ⟨fun hT => (by simp [TreeNode.typeTag, getType] at hT),
                fun hT => (by simp [TreeNode.typeTag, getType] at hT)⟩
            · exact ih path (i + 1) n hmem
        | vNum m =>
            rcases List.mem_cons.mp hn with rfl | hmem
            · refine ⟨fun hT => (by simp [TreeNode.typeTag, getType] at hT),
                fun hT => (by simp [TreeNode.typeTag, getType] at hT)⟩
            · exact ih path (i + 1) n hmem
        | vStr s =>
            rcases List.mem_cons.mp hn with rfl | hmem
            · refine ⟨fun hT => (by simp [TreeNode.typeTag, getType] at hT),
                fun hT => (by simp [TreeNode.typeTag, getType] at hT)⟩
            · exact ih path (i + 1) n hmem

/-- C4 witness: the inner array item of `[[1, 2]]` yields a node whose
children are unassigned, by the amended theorem. -/
theorem C4_witness :
    (TreeNode.mk "0" (.vArr [.vNum 1, .vNum 2]) NodeType.array none
      (some 2) "k[0]").children = none := by
  obtain ⟨-, h⟩ := C4_node_children.2 [.vArr [.vNum 1, .vNum 2]] "k" 0
    (TreeNode.mk "0" (.vArr [.vNum 1, .vNum 2]) NodeType.array none
      (some 2) "k[0]")
    (by
      rw [buildItems]
      exact List.mem_cons_self _ _)
  obtain ⟨xs, -, hch, -⟩ := h rfl
  exact hch

/-- C1 counterexample: in the `update` closure the claims cite
(`src/index.ts` lines 100–119), `const value = rx!()` is not wrapped in
any try/catch, so when `rx()` throws (here the exception `"boom"`, bound
key `"items"`, fresh element) the exception leaves `update` and reaches
the host — the claim's "it catches, logs, and returns" is false, even
though no property assignment has been performed. -/
theorem C1_counterexample :
    (update (some "items") (.error "boom") (emptyEl false)).2 = some "boom" ∧
    (update (some "items") (.error "boom") (emptyEl false)).2 ≠ none ∧
    (update (some "items") (.error "boom") (emptyEl false)).1 = emptyEl false :=
  ⟨rfl, by decide, rfl⟩

/-- C1 (amended): if evaluating the bound expression throws during an
update cycle, the cycle is abandoned with no property assignment
performed, but the exception propagates out of `update` to the host
effect — it is not caught there; only the debug variant of the plugin
(the second copy of `update` in `src/index.ts`) catches it, logs, and
returns normally. -/
theorem C1_throw_aborts_without_assignment (key : Option String) (e : String)
    (el : ElementState) :
    update key (.error e) el = (el, some e) ∧
    updateDebug key (.error e) el = (el, none) :=
  ⟨rfl, rfl⟩

/-- C6 counterexample: in multi-property mode with evaluated value
`{value: "initial", disabled: false}`, the entries `"value"` and
`"disabled"` hold a string and a boolean — not plain objects — yet both
are assigned onto the element, contradicting the claim that entries whose
values are not plain objects are ignored (no assignment). -/
theorem C6_counterexample :
    getProp ((update none
        (.ok (.vObj [("value", .vStr "initial"), ("disabled", .vBool false)]))
        (emptyEl false)).1) "disabled" = some (.vBool false) ∧
    getProp ((update none
        (.ok (.vObj [("value", .vStr "initial"), ("disabled", .vBool false)]))
        (emptyEl false)).1) "value" = some (.vStr "initial") :=
  ⟨rfl, rfl⟩

/-- C6 (amended): in multi-property mode, if the evaluated value is a
non-array object then every one of its entries is assigned as a property
on the target element, regardless of the entry value's type (for entries
with pairwise distinct keys, each property reads back as the entry's
value); if the evaluated value is not a non-array object, the cycle is a
silent no-op, not an error. -/
theorem C6_multi_property_update :
    (∀ (el : ElementState) (entries : List (String × JVal)),
        (entries.map Prod.fst).Nodup →
        ∀ p ∈ entries,
          getProp ((update none (.ok (.vObj entries)) el).1) p.1 = some p.2) ∧
    ∀ (el : ElementState) (v : JVal), v.isObj = false →
        update none (.ok v) el = (el, none) := by
  constructor
  · intro el entries hnd p hp
    exact assignEntries_mem entries el hnd p hp
  · intro el v hv
    cases v <;> first
      | rfl
      | simp [JVal.isObj] at hv

/-- C6 witness: both entries of `{value: "initial", disabled: false}` are
assigned (shown for `disabled`, a boolean), and a number-valued expression
in multi-property mode is a no-op. -/
theorem C6_witness :
    getProp ((update none
        (.ok (.vObj [("value", .vStr "initial"), ("disabled", .vBool false)]))
        (emptyEl true)).1) "disabled" = some (.vBool false) ∧
    update none (.ok (.vNum 5)) (emptyEl true) = (emptyEl true, none) :=
  ⟨C6_multi_property_update.1 (emptyEl true)
      [("value", .vStr "initial"), ("disabled", .vBool false)]
      (by decide) ("disabled", .vBool false) (by simp),
    C6_multi_property_update.2 (emptyEl true) (.vNum 5) rfl⟩

/-- C7: the hyphen-to-camel transform is collision-free on valid
identifier source keys.  Validity is modelled as "contains no ASCII
uppercase letter" — a superset of the hyphenated lowercase identifiers
the spec means (attribute keys are lowercased by the HTML parser) — and
on such keys `kebabToCamel` is injective, because rewriting every
uppercase letter `C` of the output back to `-c` recovers the input. -/
theorem C7_kebabToCamel_injective (s₁ s₂ : String)
    (h₁ : validKey s₁ = true) (h₂ : validKey s₂ = true)
    (heq : kebabToCamel s₁ = kebabToCamel s₂) : s₁ = s₂ := by
  have hdata : kebabChars s₁.data = kebabChars s₂.data := by
    have := congrArg String.data heq
    simpa [kebabToCamel] using this
  have h3 := congrArg camelBack hdata
  rw [camelBack_kebabChars s₁.data h₁, camelBack_kebabChars s₂.data h₂] at h3
  cases s₁
  cases s₂
  exact congrArg String.mk h3

/-- C7 witness: the injectivity theorem applied at the concrete valid key
`"color-config"`. -/
theorem C7_witness :
    validKey "color-config" = true ∧ ("color-config" : String) = "color-config" :=
  ⟨by decide,
    C7_kebabToCamel_injective "color-config" "color-config" (by decide) (by decide) rfl⟩

/-- C8: in single-property mode with key `k` and evaluated value `v`, one
update leaves the element's `kebabToCamel k` property equal to `v`, and —
when the element exposes a `requestUpdate` capability — `requestUpdate` is
invoked with exactly that property name. -/
theorem C8_single_property_update (el : ElementState) (k : String) (v : JVal) :
    getProp ((update (some k) (.ok v) el).1) (kebabToCamel k) = some v ∧
    (el.hasRequestUpdate = true →
      ((update (some k) (.ok v) el).1).requestUpdateCalls =
        el.requestUpdateCalls ++ [kebabToCamel k]) := by
  constructor
  · exact getProp_setProperty_self el (kebabToCamel k) v
  · intro hru
    simp [update, setProperty, hru]

/-- C8 witness: key `"color-config"` with value `{r: 255, g: 0, b: 0}` on
a fresh Lit-like element sets `colorConfig` to that object and calls
`requestUpdate("colorConfig")`. -/
theorem C8_witness :
    getProp ((update (some "color-config")
        (.ok (.vObj [("r", .vNum 255), ("g", .vNum 0), ("b", .vNum 0)]))
        (emptyEl true)).1) "colorConfig" =
      some (.vObj [("r", .vNum 255), ("g", .vNum 0), ("b", .vNum 0)]) ∧
    ((update (some "color-config")
        (.ok (.vObj [("r", .vNum 255), ("g", .vNum 0), ("b", .vNum 0)]))
        (emptyEl true)).1).requestUpdateCalls = ["colorConfig"] := by
  have h := C8_single_property_update (emptyEl true) "color-config"
    (.vObj [("r", .vNum 255), ("g", .vNum 0), ("b", .vNum 0)])
  have hk : kebabToCamel "color-config" = "colorConfig" := by decide
  refine ⟨?_, ?_⟩
  · rw [← hk]
    exact h.1
  · have h2 := h.2 rfl
    rw [hk] at h2
    simpa [emptyEl] using h2

/-- C10: in multi-property mode the entry keys of the evaluated object are
used verbatim as property names: a property whose name is not an entry key
is untouched, and an entry named `"color-config"` assigns the property
literally named `"color-config"`, leaving `colorConfig` unset (when it was
unset before) — the hyphen-to-camel transform is applied only to the
single-property key. -/
theorem C10_entry_keys_used_verbatim :
    (∀ (el : ElementState) (entries : List (String × JVal)) (name : String),
        name ∉ entries.map Prod.fst →
        getProp ((update none (.ok (.vObj entries)) el).1) name = getProp el name) ∧
    ∀ (el : ElementState) (v : JVal),
        getProp el "colorConfig" = none →
        getProp ((update none (.ok (.vObj [("color-config", v)])) el).1)
            "color-config" = some v ∧
        getProp ((update none (.ok (.vObj [("color-config", v)])) el).1)
            "colorConfig" = none := by
  constructor
  · intro el entries name hmem
    exact assignEntries_notMem entries el name hmem
  · intro el v h
    constructor
    · exact assignEntries_mem [("color-config", v)] el (by simp)
        ("color-config", v) (by simp)
    · rw [show getProp ((update none (.ok (.vObj [("color-config", v)])) el).1)
            "colorConfig" = getProp (assignEntries el [("color-config", v)])
            "colorConfig" from rfl]
      rw [assignEntries_notMem [("color-config", v)] el "colorConfig" (by simp)]
      exact h

/-- C10 witness: a single entry `"color-config" ↦ 7` on a fresh element
assigns the literal property `"color-config"` and leaves `colorConfig`
unset. -/
theorem C10_witness :
    getProp ((update none (.ok (.vObj [("color-config", .vNum 7)]))
        (emptyEl false)).1) "color-config" = some (.vNum 7) ∧
    getProp ((update none (.ok (.vObj [("color-config", .vNum 7)]))
        (emptyEl false)).1) "colorConfig" = none :=
  C10_entry_keys_used_verbatim.2 (emptyEl false) (.vNum 7) rfl

end DSProp
